import Mathlib

set_option maxRecDepth 200000

/-!
Verification of the aggregation pipeline of the Cebu news bot
(`bot.py`): title normalization, token sets, near-duplicate
detection, cross-source de-duplication, freshness classification,
URL-date inference, selection with a per-run cap, and the persisted
seen-set state.

Python strings are modeled as Lean `String` (lists of characters);
the ASCII fragments of Python's Unicode-aware character classes
(`\w`, `\s`, `str.lower`) are modeled exactly on ASCII, which covers
every string the program compares.  Floating-point comparisons of
similarity scores against the constants 0.75 and 0.82 are modeled by
exact rational arithmetic; for the integer operand sizes that occur
(set cardinalities and string lengths) the float comparison and the
exact rational comparison agree.
-/

/-- Python's whitespace class `\s` restricted to Latin-1 (the exact
set matched there: space, tab, newline, vertical tab, form feed,
carriage return, the file/group/record/unit separators, next line,
and no-break space). -/
def pySpace (c : Char) : Bool :=
  c = ' ' || c = '\t' || c = '\n' || c = '\r' || c = '\x0b' ||
  c = '\x0c' || c = '\x1c' || c = '\x1d' || c = '\x1e' || c = '\x1f' ||
  c = '\x85' || c = '\u00A0'

/-- ASCII model of Python's word-character class `\w`:
letters, digits and underscore. -/
def isWordChar (c : Char) : Bool :=
  c.isAlphanum || c = '_'

/-- ASCII model of Python's `str.lower`: map `A`-`Z` to `a`-`z`,
leave every other character unchanged. -/
def lowerChar (c : Char) : Char :=
  if 65 ≤ c.toNat ∧ c.toNat ≤ 90 then Char.ofNat (c.toNat + 32) else c

/-- Representative named HTML entities recognized by the model of
`html.unescape` (entity name including the semicolon, replacement). -/
def entityTable : List (List Char × Char) :=
  [("amp;".data, '&'), ("lt;".data, '<'), ("gt;".data, '>'),
   ("quot;".data, '"'), ("nbsp;".data, Char.ofNat 160)]

/-- Value of a list of ASCII digit characters read in base 10. -/
def digitsVal (ds : List Char) : Nat :=
  ds.foldl (fun a c => a * 10 + (c.toNat - 48)) 0

/-- Hexadecimal digit test for `&#x...;` character references. -/
def isHexDig (c : Char) : Bool :=
  c.isDigit || (decide ('a' ≤ c) && decide (c ≤ 'f')) ||
    (decide ('A' ≤ c) && decide (c ≤ 'F'))

/-- Numeric value of a hexadecimal digit character. -/
def hexDigVal (c : Char) : Nat :=
  if c.isDigit then c.toNat - 48
  else if 'a' ≤ c then c.toNat - 87
  else c.toNat - 55

/-- Decode the body of a hexadecimal character reference `&#xHH..;`:
the digits after `&#x`, terminated by a semicolon; returns the
character and how many characters after the `&` were consumed. -/
def hexEntity (rest : List Char) : Option (Char × Nat) :=
  let ds := rest.takeWhile isHexDig
  if ds ≠ [] ∧ (rest.drop ds.length).head? = some ';' then
    let n := ds.foldl (fun a c => a * 16 + hexDigVal c) 0
    some (if n.isValidChar then Char.ofNat n else Char.ofNat 65533,
          2 + ds.length + 1)
  else none

/-- Try to decode one HTML entity whose `&` has just been consumed:
returns the replacement character and how many characters of the
remainder the entity body occupies.  Handles the named entities of
`entityTable` and decimal numeric references `#NNN;`. -/
def matchEntity (cs : List Char) : Option (Char × Nat) :=
  match entityTable.find? (fun e => e.1.isPrefixOf cs) with
  | some e => some (e.2, e.1.length)
  | none =>
    match cs with
    | '#' :: 'x' :: rest => hexEntity rest
    | '#' :: 'X' :: rest => hexEntity rest
    | '#' :: rest =>
      let ds := rest.takeWhile Char.isDigit
      if ds ≠ [] ∧ (rest.drop ds.length).head? = some ';' then
        let n := digitsVal ds
        some (if n.isValidChar then Char.ofNat n else Char.ofNat 65533,
              1 + ds.length + 1)
      else none
    | _ => none

/-- Fuel-indexed scanner behind `unescape`; the fuel is always at
least the length of the list, so the fuel-exhausted branch is never
taken. -/
def unescapeGo : Nat → List Char → List Char
  | 0, l => l
  | _ + 1, [] => []
  | fuel + 1, c :: cs =>
    if c = '&' then
      match matchEntity cs with
      | some (r, k) => r :: unescapeGo fuel (cs.drop k)
      | none => '&' :: unescapeGo fuel cs
    else c :: unescapeGo fuel cs

/-- Model of Python's `html.unescape`: rewrite entity references,
leaving all other characters (in particular everything that is not
an ampersand) unchanged. -/
def unescape (l : List Char) : List Char :=
  unescapeGo l.length l

/-- State machine behind `collapseWS`; the flag records whether the
previous character belonged to a whitespace run that has already
emitted its single space. -/
def collapseGo (prevSpace : Bool) : List Char → List Char
  | [] => []
  | c :: cs =>
    if pySpace c then
      if prevSpace then collapseGo true cs
      else ' ' :: collapseGo true cs
    else c :: collapseGo false cs

/-- Model of `re.sub(r"\s+", " ", t)`: replace every maximal run of
whitespace by a single space. -/
def collapseWS (l : List Char) : List Char :=
  collapseGo false l

/-- Model of `re.sub(r"[^\w\s]", "", t)`: delete every character that
is neither a word character nor whitespace. -/
def stripPunct (l : List Char) : List Char :=
  l.filter (fun c => isWordChar c || pySpace c)

/-- Model of Python's `str.strip()`: remove leading and trailing
whitespace. -/
def trimWs (l : List Char) : List Char :=
  (((l.dropWhile pySpace).reverse.dropWhile pySpace)).reverse

/-- The character-level pipeline of `norm_title`: decode HTML
entities, lowercase, collapse whitespace runs to single spaces,
strip punctuation, trim. -/
def normChars (l : List Char) : List Char :=
  trimWs (stripPunct (collapseWS (List.map lowerChar (unescape l))))

/-- `norm_title` from `bot.py`: the canonical comparable form of a
title. -/
def norm_title (t : String) : String :=
  String.mk (normChars t.data)

/-- Accumulator-based splitter behind `splitWs`; the accumulator
holds the reversed characters of the word currently being read. -/
def splitGo (acc : List Char) : List Char → List (List Char)
  | [] => if acc = [] then [] else [acc.reverse]
  | c :: cs =>
    if pySpace c then
      if acc = [] then splitGo [] cs else acc.reverse :: splitGo [] cs
    else splitGo (c :: acc) cs

/-- Model of Python's `str.split()` with no arguments: the maximal
runs of non-whitespace characters, in order. -/
def splitWs (l : List Char) : List (List Char) :=
  splitGo [] l

/-- `token_set` from `bot.py`: the set of whitespace-separated tokens
of the normalized title that are strictly longer than 2 characters. -/
def token_set (s : String) : Finset String :=
  (((splitWs (norm_title s).data).filter (fun w => 2 < w.length)).map
    String.mk).toFinset

/-- Length of the longest common prefix of two character lists. -/
def lcp : List Char → List Char → Nat
  | a :: as, b :: bs => if a = b then lcp as bs + 1 else 0
  | _, _ => 0

/-- difflib's autojunk heuristic: when the second sequence has
length at least 200, the characters occurring more than
`length / 100 + 1` times are "popular" and are excluded from the
`b2j` index, so the matching core cannot build chains through them.
The set is computed once from the full second string and reused by
every recursive window. -/
def popularChars (b : List Char) : List Char :=
  if 200 ≤ b.length then
    b.dedup.filter (fun c => b.length / 100 + 1 < b.count c)
  else []

/-- Longest common prefix none of whose second-side characters is
popular: exactly the chains `find_longest_match`'s dynamic program
can build, since popular characters are missing from `b2j`. -/
def lcpNP (pop : List Char) : List Char → List Char → Nat
  | a :: as, b :: bs =>
    if a = b ∧ pop.contains b = false then lcpNP pop as bs + 1 else 0
  | _, _ => 0

/-- The dynamic-programming core of
`difflib.SequenceMatcher.find_longest_match` (no junk): among all
maximal common substrings avoiding popular characters, of maximal
length, the one starting earliest in `a`, ties broken by the earliest
start in `b`; returns `(start in a, start in b, length)`, or
`(0, 0, 0)` if there is none. -/
def flmCore (pop : List Char) (a b : List Char) : Nat × Nat × Nat :=
  (List.range a.length).foldl
    (fun best i =>
      (List.range b.length).foldl
        (fun best' j =>
          let k := lcpNP pop (a.drop i) (b.drop j)
          if k > best'.2.2 then (i, j, k) else best')
        best)
    (0, 0, 0)

/-- The extension loops of `find_longest_match`: with no junk
characters the core match is greedily extended by equal characters on
both ends (this is how popular characters still join a match; the
junk suck-up loops are no-ops). -/
def extendMatch (a b : List Char) (t : Nat × Nat × Nat) :
    Nat × Nat × Nat :=
  match t with
  | (i, j, k) =>
    let el := lcp ((a.take i).reverse) ((b.take j).reverse)
    let er := lcp (a.drop (i + k)) (b.drop (j + k))
    (i - el, j - el, k + el + er)

/-- `difflib.SequenceMatcher.find_longest_match` with the popular set
of the full second string: dynamic-programming core, then the
greedy extensions. -/
def flm (pop : List Char) (a b : List Char) : Nat × Nat × Nat :=
  extendMatch a b (flmCore pop a b)

/-- Total number of matched characters in
`difflib.SequenceMatcher.get_matching_blocks`: recursively take the
longest match and recurse on the parts to its left and right (the
popular set stays that of the full second string).  The fuel is
always strictly larger than the recursion depth. -/
def matchTotal (pop : List Char) : Nat → List Char → List Char → Nat
  | 0, _, _ => 0
  | fuel + 1, a, b =>
    match flm pop a b with
    | (i, j, k) =>
      if k = 0 then 0
      else matchTotal pop fuel (a.take i) (b.take j) + k +
           matchTotal pop fuel (a.drop (i + k)) (b.drop (j + k))

/-- Number of matched characters between two strings under the
`SequenceMatcher` model (popular characters from the second string,
sufficient fuel). -/
def matchSum (a b : String) : Nat :=
  matchTotal (popularChars b.data) (a.length + b.length + 1)
    a.data b.data

/-- `difflib.SequenceMatcher.ratio` as an exact rational:
`2 * M / T` where `M` is the number of matched characters and `T` the
total length; `1` when both strings are empty. -/
def ratioVal (a b : String) : ℚ :=
  if a.length + b.length = 0 then 1
  else 2 * (matchSum a b : ℚ) / ((a.length + b.length : Nat) : ℚ)

/-- The Jaccard similarity used in `near_duplicate`, as an exact
rational: `|A ∩ B| / max(1, |A ∪ B|)`. -/
def jaccardQ (ta tb : Finset String) : ℚ :=
  ((ta ∩ tb).card : ℚ) / ((max 1 (ta ∪ tb).card : Nat) : ℚ)

/-- `near_duplicate` from `bot.py`: empty normalized titles never
match; otherwise match if the token-set Jaccard similarity reaches
0.75, else if the character-level ratio reaches 0.82.  The two
rational threshold comparisons are computed by the equivalent
cross-multiplied integer comparisons. -/
def near_duplicate (a b : String) : Bool :=
  let na := norm_title a
  let nb := norm_title b
  if na = "" || nb = "" then false
  else
    let ta := token_set a
    let tb := token_set b
    if (ta.card != 0 && tb.card != 0) &&
       decide (3 * max 1 (ta ∪ tb).card ≤ 4 * (ta ∩ tb).card) then true
    else decide (82 * (na.length + nb.length) ≤ 200 * matchSum na nb)

/-- A candidate record as produced by the scrapers: title, URL and
source name. -/
structure Cand where
  title : String
  url : String
  source : String
deriving DecidableEq, Repr

/-- The loop body of `dedupe_by_similarity`: drop an incoming item
when its title is a near-duplicate of the title of any already-kept
item, otherwise append it. -/
def dedupeAux (kept : List Cand) : List Cand → List Cand
  | [] => kept
  | it :: rest =>
    if kept.any (fun k => near_duplicate it.title k.title) then
      dedupeAux kept rest
    else dedupeAux (kept ++ [it]) rest

/-- `dedupe_by_similarity` from `bot.py`: keep first occurrence. -/
def dedupe_by_similarity (items : List Cand) : List Cand :=
  dedupeAux [] items

/-- `MAX_AGE_HOURS` from `bot.py`. -/
def MAX_AGE_HOURS : Int := 24

/-- `MAX_POSTS_PER_RUN` from `bot.py`. -/
def MAX_POSTS_PER_RUN : Nat := 5

/-- `is_fresh` from `bot.py`, with the network-dependent
`extract_published_datetime` abstracted as an oracle `resolve`
returning the publication instant in seconds (UTC) when one was
found.  An item with no resolvable instant is treated as fresh;
otherwise it is fresh exactly when its age is at most
`max_age_hours` hours (inclusive). -/
def is_fresh (resolve : String → Option Int) (now : Int) (url : String)
    (max_age_hours : Int) : Bool :=
  match resolve url with
  | none => true
  | some dt => decide (now - dt ≤ max_age_hours * 3600)

/-- The seen-and-freshness filter loop of `main` (`bot.py` lines
349-354): skip candidates whose URL is in the seen set, keep the
fresh ones among the rest, preserving order. -/
def selectFresh (seen : Finset String) (fresh : String → Bool) :
    List Cand → List Cand
  | [] => []
  | it :: rest =>
    if it.url ∈ seen then selectFresh seen fresh rest
    else if fresh it.url then it :: selectFresh seen fresh rest
    else selectFresh seen fresh rest

/-- The selection phase of `main`: unseen, fresh, capped
(`to_post = filtered[:cap]`). -/
def selectForRun (seen : Finset String) (fresh : String → Bool)
    (cap : Nat) (items : List Cand) : List Cand :=
  (selectFresh seen fresh items).take cap

/-- One iteration of the posting loop of `main`: on a successful
publish the URL joins the working seen set and the success counter
increments; on a failure the state is unchanged and the loop
continues with the next candidate. -/
def publishStep (pub : Cand → Bool) (acc : Finset String × Nat)
    (it : Cand) : Finset String × Nat :=
  if pub it then (insert it.url acc.1, acc.2 + 1) else acc

/-- The posting loop of `main` over the selected candidates, with the
external publisher abstracted as an oracle `pub`; returns the final
working seen set and the number of successful publishes. -/
def publishRun (pub : Cand → Bool) (toPost : List Cand)
    (seen : Finset String) : Finset String × Nat :=
  toPost.foldl (publishStep pub) (seen, 0)

/-- `save_state` from `bot.py`: the persisted file content, modeled
as the JSON array it denotes — the identifiers sorted for
determinism. -/
def save_state (ids : Finset String) : List String :=
  ids.sort (fun a b => a ≤ b)

/-- `load_state` from `bot.py` on an existing readable file, modeled
on the JSON array the file holds: the set of its elements. -/
def load_state (content : List String) : Finset String :=
  content.toFinset

/-- End of `main`: the state file is rewritten only when at least one
publish succeeded (`if posted: save_state(seen_urls)`); `none` means
the persisted state is left untouched. -/
def runSave (pub : Cand → Bool) (toPost : List Cand)
    (seen : Finset String) : Option (List String) :=
  let r := publishRun pub toPost seen
  if r.2 ≠ 0 then some (save_state r.1) else none

/-- ASCII digit test, the model of `\d` in the URL regexes. -/
def isDig (c : Char) : Bool :=
  c.isDigit

/-- Numeric value of an ASCII digit character. -/
def digVal (c : Char) : Nat :=
  c.toNat - 48

/-- Match `(\d{1,2})sep` at the head of `l`: one or two digits
followed by the literal `sep` (the two alternatives are mutually
exclusive, so the regex needs no backtracking here); returns the
number and the remainder after the separator. -/
def numSep (sep : Char) (l : List Char) : Option (Nat × List Char) :=
  match l with
  | a :: b :: c :: rest =>
    if isDig a && isDig b && decide (c = sep) then
      some (10 * digVal a + digVal b, rest)
    else if isDig a && decide (b = sep) then
      some (digVal a, c :: rest)
    else none
  | [a, b] =>
    if isDig a && decide (b = sep) then some (digVal a, []) else none
  | _ => none

/-- The terminator `(?:-|/|$)` of the second URL-date pattern: a dash
or slash follows, or the position is at the end of the string (in
Python's default mode `$` also matches just before a single trailing
newline). -/
def p2Term (l : List Char) : Bool :=
  match l with
  | [] => true
  | [c] => c = '-' || c = '/' || c = '\n'
  | c :: _ => c = '-' || c = '/'

/-- Match `(\d{1,2})(?:-|/|$)` at the head of `l` (day part of the
second URL-date pattern). -/
def p2Day (l : List Char) : Option Nat :=
  match l with
  | a :: b :: rest =>
    if isDig a && isDig b && p2Term rest then some (10 * digVal a + digVal b)
    else if isDig a && p2Term (b :: rest) then some (digVal a)
    else none
  | [a] => if isDig a then some (digVal a) else none
  | [] => none

/-- Match the first URL-date pattern `/(20\d{2})/(\d{1,2})/(\d{1,2})/`
at offset `i` of `s`; returns the year, month and day fields. -/
def p1At (s : List Char) (i : Nat) : Option (Nat × Nat × Nat) :=
  match s.drop i with
  | '/' :: '2' :: '0' :: a :: b :: '/' :: rest =>
    if isDig a && isDig b then
      match numSep '/' rest with
      | some (mo, rest2) =>
        match numSep '/' rest2 with
        | some (d, _) => some (2000 + 10 * digVal a + digVal b, mo, d)
        | none => none
      | none => none
    else none
  | _ => none

/-- Match the second URL-date pattern
`-(20\d{2})-(\d{1,2})-(\d{1,2})(?:-|/|$)` at offset `i` of `s`. -/
def p2At (s : List Char) (i : Nat) : Option (Nat × Nat × Nat) :=
  match s.drop i with
  | '-' :: '2' :: '0' :: a :: b :: '-' :: rest =>
    if isDig a && isDig b then
      match numSep '-' rest with
      | some (mo, rest2) =>
        match p2Day rest2 with
        | some d => some (2000 + 10 * digVal a + digVal b, mo, d)
        | none => none
      | none => none
    else none
  | _ => none

/-- Try a positional matcher at offsets `i, i+1, ...` (`n` attempts)
and return the first hit: the leftmost-match rule of `re.search`. -/
def scanFrom (f : Nat → Option (Nat × Nat × Nat)) :
    Nat → Nat → Option (Nat × Nat × Nat)
  | 0, _ => none
  | n + 1, i =>
    match f i with
    | some v => some v
    | none => scanFrom f n (i + 1)

/-- `re.search` of the first URL-date pattern over the whole string. -/
def searchP1 (s : List Char) : Option (Nat × Nat × Nat) :=
  scanFrom (p1At s) s.length 0

/-- `re.search` of the second URL-date pattern over the whole string. -/
def searchP2 (s : List Char) : Option (Nat × Nat × Nat) :=
  scanFrom (p2At s) s.length 0

/-- Days of a month in the proleptic Gregorian calendar (the years
matched by the patterns are 2000-2099, where leap years are exactly
the multiples of 4). -/
def daysInMonth (y mo : Nat) : Nat :=
  if mo = 2 then
    if y % 4 = 0 && (y % 100 != 0 || y % 400 = 0) then 29 else 28
  else if mo = 4 || mo = 6 || mo = 9 || mo = 11 then 30
  else 31

/-- Whether `datetime(y, mo, d)` succeeds: a valid calendar date. -/
def validDate (y mo d : Nat) : Bool :=
  decide (1 ≤ mo) && decide (mo ≤ 12) && decide (1 ≤ d) &&
  decide (d ≤ daysInMonth y mo)

/-- The second half of `infer_date_from_url`: the `-YYYY-MM-DD`
fallback, returning the matched date when it is a valid calendar
date. -/
def tryP2 (s : List Char) : Option (Nat × Nat × Nat) :=
  match searchP2 s with
  | some (y, mo, d) => if validDate y mo d then some (y, mo, d) else none
  | none => none

/-- `infer_date_from_url` from `bot.py`: search the first pattern;
if its (leftmost) match is a valid date return it (as midnight UTC of
that day), otherwise fall back to the second pattern; an invalid
match of a pattern falls through (`except: pass`) without trying
later occurrences of the same pattern. -/
def infer_date_from_url (url : String) : Option (Nat × Nat × Nat) :=
  match searchP1 url.data with
  | some (y, mo, d) =>
    if validDate y mo d then some (y, mo, d) else tryP2 url.data
  | none => tryP2 url.data

/-! ### Generic list lemmas -/

/-- The head of a `dropWhile` result never satisfies the predicate. -/
theorem head?_dropWhile_not {p : Char → Bool} :
    ∀ (l : List Char) (c : Char),
      (l.dropWhile p).head? = some c → p c = false := by
  intro l
  induction l with
  | nil => intro c h; simp [List.dropWhile] at h
  | cons a as ih =>
    intro c h
    by_cases hp : p a
    · rw [List.dropWhile_cons_of_pos hp] at h
      exact ih c h
    · rw [List.dropWhile_cons_of_neg hp] at h
      simp at h
      subst h
      simpa using hp

/-- A nonempty suffix has the same last element as the whole list. -/
theorem IsSuffix.getLast?_eq {α : Type} {l₁ l₂ : List α}
    (h : l₁ <:+ l₂) (hne : l₁ ≠ []) : l₁.getLast? = l₂.getLast? := by
  obtain ⟨t, rfl⟩ := h
  rw [List.getLast?_append]
  rw [Option.or_of_isSome]
  simpa [Option.isSome_iff_ne_none, List.getLast?_eq_none_iff] using hne

/-- Mapping a function that fixes every element of a list is the
identity. -/
theorem map_eq_self_of_fixed {α : Type} {f : α → α} {l : List α}
    (h : ∀ c ∈ l, f c = c) : List.map f l = l := by
  rw [List.map_congr_left h]
  simp

/-! ### Character lemmas -/

/-- `Char.ofNat` of a scalar value below the surrogate range reads
back as that value. -/
theorem toNat_ofNat_lt (n : Nat) (h : n < 55296) :
    (Char.ofNat n).toNat = n := by
  have hv : n.isValidChar := Or.inl h
  simp [Char.ofNat, hv, Char.ofNatAux, Char.toNat, UInt32.toNat,
    BitVec.toNat_ofNatLt]

/-- Lowercasing is idempotent. -/
theorem lowerChar_idem (c : Char) : lowerChar (lowerChar c) = lowerChar c := by
  unfold lowerChar
  by_cases h : 65 ≤ c.toNat ∧ c.toNat ≤ 90
  · rw [if_pos h]
    have ht : (Char.ofNat (c.toNat + 32)).toNat = c.toNat + 32 :=
      toNat_ofNat_lt _ (by omega)
    rw [if_neg (by omega)]
  · rw [if_neg h, if_neg h]

/-- A word character is not whitespace. -/
theorem word_not_space {c : Char} (h : isWordChar c = true) :
    pySpace c = false := by
  by_contra hs
  have hs' : pySpace c = true := by
    cases hb : pySpace c
    · exact absurd hb hs
    · rfl
  simp only [pySpace, Bool.or_eq_true, decide_eq_true_eq] at hs'
  rcases hs' with (((((((((((h1 | h1) | h1) | h1) | h1) | h1) | h1) | h1) | h1) | h1) | h1) | h1) <;>
    subst h1 <;> simp [isWordChar, Char.isAlphanum, Char.isAlpha,
      Char.isUpper, Char.isLower, Char.isDigit] at h

/-- The space character is fixed by lowercasing. -/
theorem lowerChar_space : lowerChar ' ' = ' ' := by decide

/-! ### `unescape` lemmas -/

/-- With enough fuel, a list without ampersands is left unchanged by
the entity scanner. -/
theorem unescapeGo_eq_self :
    ∀ (fuel : Nat) (l : List Char), l.length ≤ fuel →
      (∀ c ∈ l, c ≠ '&') → unescapeGo fuel l = l := by
  intro fuel
  induction fuel with
  | zero => intro l _ _; rfl
  | succ n ih =>
    intro l hlen hno
    match l with
    | [] => rfl
    | c :: cs =>
      have hc : c ≠ '&' := hno c (by simp)
      simp only [unescapeGo, if_neg hc]
      have : unescapeGo n cs = cs := by
        refine ih cs ?_ ?_
        · simpa using Nat.le_of_succ_le_succ hlen
        · intro d hd; exact hno d (by simp [hd])
      rw [this]

/-- A list without ampersands is left unchanged by `unescape`. -/
theorem unescape_eq_self {l : List Char} (hno : ∀ c ∈ l, c ≠ '&') :
    unescape l = l :=
  unescapeGo_eq_self l.length l le_rfl hno

/-! ### `collapseWS` lemmas -/

/-- Every character emitted by the collapse state machine is either
the single space standing for a whitespace run or a non-whitespace
character of the input. -/
theorem collapseGo_chars :
    ∀ (l : List Char) (b : Bool) (c : Char), c ∈ collapseGo b l →
      c = ' ' ∨ (c ∈ l ∧ pySpace c = false) := by
  intro l
  induction l with
  | nil => intro b c h; simp [collapseGo] at h
  | cons a as ih =>
    intro b c h
    by_cases ha : pySpace a
    · rw [collapseGo, if_pos ha] at h
      cases b with
      | true =>
        rcases ih true c h with h' | h'
        · exact Or.inl h'
        · exact Or.inr ⟨List.mem_cons_of_mem _ h'.1, h'.2⟩
      | false =>
        rcases List.mem_cons.mp h with h' | h'
        · exact Or.inl h'
        · rcases ih true c h' with h'' | h''
          · exact Or.inl h''
          · exact Or.inr ⟨List.mem_cons_of_mem _ h''.1, h''.2⟩
    · rw [collapseGo, if_neg ha] at h
      rcases List.mem_cons.mp h with h' | h'
      · subst h'
        exact Or.inr ⟨List.mem_cons_self _ _, by simpa using ha⟩
      · rcases ih false c h' with h'' | h''
        · exact Or.inl h''
        · exact Or.inr ⟨List.mem_cons_of_mem _ h''.1, h''.2⟩

/-- After a whitespace run has been collapsed, the next emitted
character is not whitespace. -/
theorem collapseGo_true_head :
    ∀ (l : List Char) (d : Char), (collapseGo true l).head? = some d →
      pySpace d = false := by
  intro l
  induction l with
  | nil => intro d h; simp [collapseGo] at h
  | cons a as ih =>
    intro d h
    by_cases ha : pySpace a
    · rw [collapseGo, if_pos ha] at h
      exact ih d h
    · rw [collapseGo, if_neg ha] at h
      simp at h
      subst h
      simpa using ha

/-- The collapse output never has two adjacent whitespace
characters. -/
theorem collapseGo_chain :
    ∀ (l : List Char) (b : Bool),
      List.Chain' (fun x y => pySpace x = true → pySpace y = false)
        (collapseGo b l) := by
  intro l
  induction l with
  | nil => intro b; simp [collapseGo]
  | cons a as ih =>
    intro b
    by_cases ha : pySpace a
    · rw [collapseGo, if_pos ha]
      cases b with
      | true => exact ih true
      | false =>
        rw [if_neg (by simp)]
        rw [List.chain'_cons']
        exact ⟨fun y hy _ => collapseGo_true_head as y hy, ih true⟩
    · rw [collapseGo, if_neg ha]
      rw [List.chain'_cons']
      refine ⟨fun y _ hx => absurd hx (by simpa using ha), ih false⟩

/-- On a list whose head is not whitespace, the two states of the
collapse machine agree. -/
theorem collapseGo_true_eq_false {l : List Char}
    (h : ∀ d, l.head? = some d → pySpace d = false) :
    collapseGo true l = collapseGo false l := by
  match l with
  | [] => rfl
  | c :: cs =>
    have hc : pySpace c = false := h c rfl
    rw [collapseGo, collapseGo, if_neg (by simp [hc]), if_neg (by simp [hc])]

/-- A list with no adjacent whitespace, all of whose whitespace
characters are plain spaces, is a fixed point of whitespace
collapsing. -/
theorem collapseGo_eq_self :
    ∀ l : List Char,
      List.Chain' (fun x y => pySpace x = true → pySpace y = false) l →
      (∀ c ∈ l, pySpace c = true → c = ' ') →
      collapseGo false l = l := by
  intro l
  induction l with
  | nil => intro _ _; rfl
  | cons a as ih =>
    intro hch hsp
    by_cases ha : pySpace a
    · have ha' : a = ' ' := hsp a (List.mem_cons_self _ _) ha
      rw [collapseGo, if_pos ha]
      have hhead : ∀ d, as.head? = some d → pySpace d = false := by
        intro d hd
        match as, hd with
        | d :: as', rfl =>
          exact (List.chain'_cons'.mp hch).1 d rfl ha
      rw [collapseGo_true_eq_false hhead]
      rw [ih (List.Chain'.tail hch)
        (fun c hc hsc => hsp c (List.mem_cons_of_mem _ hc) hsc)]
      rw [ha']
      rw [if_neg (by simp)]
    · rw [collapseGo, if_neg ha]
      rw [ih (List.Chain'.tail hch)
        (fun c hc hsc => hsp c (List.mem_cons_of_mem _ hc) hsc)]

/-! ### `trimWs` lemmas -/

/-- Trimming yields a contiguous segment of the input. -/
theorem trimWs_segment (l : List Char) : trimWs l <:+: l := by
  unfold trimWs
  have h1 : l.dropWhile pySpace <:+ l := List.dropWhile_suffix pySpace
  have h2 : (l.dropWhile pySpace).reverse.dropWhile pySpace <:+
      (l.dropWhile pySpace).reverse := List.dropWhile_suffix pySpace
  have h3 : ((l.dropWhile pySpace).reverse.dropWhile pySpace).reverse <+:
      l.dropWhile pySpace := by
    have h4 := List.reverse_prefix.mpr h2
    simpa using h4
  exact h3.isInfix.trans h1.isInfix

/-- The first character of a trimmed list is not whitespace. -/
theorem trimWs_head {l : List Char} {c : Char}
    (h : (trimWs l).head? = some c) : pySpace c = false := by
  unfold trimWs at h
  rw [List.head?_reverse] at h
  have hne : (l.dropWhile pySpace).reverse.dropWhile pySpace ≠ [] := by
    intro hnil
    rw [hnil] at h
    simp at h
  have hsuf : (l.dropWhile pySpace).reverse.dropWhile pySpace <:+
      (l.dropWhile pySpace).reverse := List.dropWhile_suffix pySpace
  rw [IsSuffix.getLast?_eq hsuf hne] at h
  rw [List.getLast?_reverse] at h
  exact head?_dropWhile_not l c h

/-- The last character of a trimmed list is not whitespace. -/
theorem trimWs_getLast {l : List Char} {c : Char}
    (h : (trimWs l).getLast? = some c) : pySpace c = false := by
  unfold trimWs at h
  rw [List.getLast?_reverse] at h
  exact head?_dropWhile_not _ c h

/-- A list whose first and last characters are not whitespace is a
fixed point of trimming. -/
theorem trimWs_eq_self {l : List Char}
    (hh : ∀ c, l.head? = some c → pySpace c = false)
    (hl : ∀ c, l.getLast? = some c → pySpace c = false) :
    trimWs l = l := by
  have h1 : l.dropWhile pySpace = l := by
    match l with
    | [] => rfl
    | c :: cs => exact List.dropWhile_cons_of_neg (by simp [hh c rfl])
  unfold trimWs
  rw [h1]
  have h2 : l.reverse.dropWhile pySpace = l.reverse := by
    match hr : l.reverse with
    | [] => rfl
    | c :: cs =>
      refine List.dropWhile_cons_of_neg ?_
      have : l.reverse.head? = some c := by rw [hr]; rfl
      rw [List.head?_reverse] at this
      simp [hl c this]
  rw [h2, List.reverse_reverse]

/-! ### The image of `normChars` -/

/-- Every character of a normalized title is a word character or a
plain space, and is fixed by lowercasing. -/
theorem normChars_mem (l : List Char) :
    ∀ c ∈ normChars l, (isWordChar c = true ∨ c = ' ') ∧ lowerChar c = c := by
  intro c hc
  have hc2 : c ∈ stripPunct (collapseWS (List.map lowerChar (unescape l))) :=
    (trimWs_segment _).subset hc
  rw [stripPunct, List.mem_filter] at hc2
  obtain ⟨hmem, hkeep⟩ := hc2
  rcases collapseGo_chars _ false c hmem with hsp | ⟨hmem2, hnsp⟩
  · subst hsp
    exact ⟨Or.inr rfl, lowerChar_space⟩
  · rw [List.mem_map] at hmem2
    obtain ⟨x, _, hx⟩ := hmem2
    have hfix : lowerChar c = c := by rw [hx.symm]; exact lowerChar_idem x
    have hword : isWordChar c = true := by
      rcases Bool.or_eq_true_iff.mp hkeep with h | h
      · exact h
      · rw [h] at hnsp; cases hnsp
    exact ⟨Or.inl hword, hfix⟩

/-- In a normalized title, every whitespace character is a plain
space. -/
theorem normChars_space_mem (l : List Char) :
    ∀ c ∈ normChars l, pySpace c = true → c = ' ' := by
  intro c hc hsp
  rcases (normChars_mem l c hc).1 with hw | hs
  · rw [word_not_space hw] at hsp; cases hsp
  · exact hs

/-- On a list all of whose characters are lowercase-fixed word
characters or spaces, the normalization pipeline degenerates to
collapsing whitespace and trimming. -/
theorem normChars_of_fixed {m : List Char}
    (hA : ∀ c ∈ m, (isWordChar c = true ∨ c = ' ') ∧ lowerChar c = c) :
    normChars m = trimWs (collapseWS m) := by
  have hu : unescape m = m := by
    refine unescape_eq_self ?_
    intro c hc hamp
    rcases (hA c hc).1 with hw | hs
    · subst hamp; simp [isWordChar, Char.isAlphanum, Char.isAlpha,
        Char.isUpper, Char.isLower, Char.isDigit] at hw
    · subst hamp; cases hs
  have hm : List.map lowerChar m = m :=
    map_eq_self_of_fixed (fun c hc => (hA c hc).2)
  have hs : stripPunct (collapseWS m) = collapseWS m := by
    rw [stripPunct, List.filter_eq_self]
    intro c hc
    rcases collapseGo_chars _ false c hc with hsp | ⟨hmem, _⟩
    · subst hsp; simp [pySpace]
    · rcases (hA c hmem).1 with hw | hsp'
      · simp [hw]
      · subst hsp'; simp [pySpace]
  rw [normChars, hu, hm, hs]

/-- The second normalization pass only re-collapses the whitespace of
the first pass's output. -/
theorem normChars_normChars (l : List Char) :
    normChars (normChars l) = trimWs (collapseWS (normChars l)) :=
  normChars_of_fixed (normChars_mem l)

/-- The output of two normalization passes is a fixed point of the
pipeline. -/
theorem normChars_fixed_of_two (l : List Char) :
    normChars (normChars (normChars l)) = normChars (normChars l) := by
  have hv : normChars (normChars l) = trimWs (collapseWS (normChars l)) :=
    normChars_normChars l
  rw [normChars_of_fixed (normChars_mem (normChars l))]
  have hchain : List.Chain'
      (fun x y => pySpace x = true → pySpace y = false)
      (normChars (normChars l)) := by
    rw [hv]
    exact List.Chain'.infix (collapseGo_chain _ false) (trimWs_segment _)
  have hcoll : collapseWS (normChars (normChars l)) =
      normChars (normChars l) :=
    collapseGo_eq_self _ hchain (normChars_space_mem (normChars l))
  rw [hcoll]
  refine trimWs_eq_self ?_ ?_
  · intro c hc
    rw [hv] at hc
    exact trimWs_head hc
  · intro c hc
    rw [hv] at hc
    exact trimWs_getLast hc

/-! ### Sanity checks of the embedding on concrete inputs
(cross-checked against the Python implementation) -/

example : norm_title "  Hello,   WORLD! " = "hello world" := by decide
example : norm_title "a . b" = "a  b" := by decide
example : token_set "Cebu City OKs  new-budget" =
    {"cebu", "city", "oks", "newbudget"} := by decide
example : unescape "a&amp;b".data = "a&b".data := by decide
example : unescape "a&#x41;b".data = "aAb".data := by decide
example : norm_title "a&nbsp;b" = "a b" := by decide

example : matchSum "abc def" "uvw xyz" = 1 := by decide
example : matchSum "abcd" "bcda" = 3 := by decide
example : matchSum "a  b" "a b" = 3 := by decide
example : matchSum "xcabx" "abxxc" = 3 := by decide
example : flm (popularChars "ba".data) "ab".data "ba".data = (0, 1, 1) := by
  decide
example : near_duplicate "Cebu City council approves new budget"
    "Cebu council approves new city budget" = true := by decide
example : near_duplicate "?" "?" = false := by decide
example : near_duplicate "" "anything" = false := by decide

example : infer_date_from_url "https://x.ph/2024/05/06/story" =
    some (2024, 5, 6) := by decide
example : infer_date_from_url "https://x.ph/news-2024-5-6" =
    some (2024, 5, 6) := by decide
example : infer_date_from_url "https://x.ph/article" = none := by decide
example : infer_date_from_url "a/2023/13/05/b/2022/01/02/c" = none := by
  decide
example : p1At "a/2023/13/05/b/2022/01/02/c".data 14 = some (2022, 1, 2) := by
  decide


/-! ### `SequenceMatcher` lemmas -/

/-- A list shares its full length as a common prefix with itself. -/
theorem lcp_self : ∀ l : List Char, lcp l l = l.length := by
  intro l
  induction l with
  | nil => rfl
  | cons c cs ih => simp [lcp, ih]

/-- A popular-avoiding common prefix is no longer than the first
list. -/
theorem lcpNP_le_left (pop : List Char) :
    ∀ a b : List Char, lcpNP pop a b ≤ a.length := by
  intro a
  induction a with
  | nil => intro b; cases b <;> simp [lcpNP]
  | cons x as ih =>
    intro b
    cases b with
    | nil => simp [lcpNP]
    | cons y bs =>
      by_cases h : x = y ∧ pop.contains y = false
      · have := ih bs
        simp only [lcpNP, if_pos h, List.length_cons]
        omega
      · simp only [lcpNP, if_neg h, List.length_cons]
        omega

/-- Matched characters are popular-avoiding on both sides, so the
self-comparison of the first list dominates. -/
theorem lcpNP_le_self_left (pop : List Char) :
    ∀ a b : List Char, lcpNP pop a b ≤ lcpNP pop a a := by
  intro a
  induction a with
  | nil => intro b; cases b <;> simp [lcpNP]
  | cons x as ih =>
    intro b
    cases b with
    | nil => simp [lcpNP]
    | cons y bs =>
      by_cases h : x = y ∧ pop.contains y = false
      · obtain ⟨rfl, hnp⟩ := h
        have hx : x ∉ pop := by simpa using hnp
        have h1 : lcpNP pop (x :: as) (x :: bs) = lcpNP pop as bs + 1 := by
          simp [lcpNP, hx]
        have h2 : lcpNP pop (x :: as) (x :: as) = lcpNP pop as as + 1 := by
          simp [lcpNP, hx]
        rw [h1, h2]
        have := ih bs
        omega
      · simp only [lcpNP]
        rw [if_neg h]
        exact Nat.zero_le _

/-- The self-comparison of the second list dominates likewise. -/
theorem lcpNP_le_self_right (pop : List Char) :
    ∀ a b : List Char, lcpNP pop a b ≤ lcpNP pop b b := by
  intro a
  induction a with
  | nil => intro b; cases b <;> simp [lcpNP]
  | cons x as ih =>
    intro b
    cases b with
    | nil => simp [lcpNP]
    | cons y bs =>
      by_cases h : x = y ∧ pop.contains y = false
      · obtain ⟨rfl, hnp⟩ := h
        have hx : x ∉ pop := by simpa using hnp
        have h1 : lcpNP pop (x :: as) (x :: bs) = lcpNP pop as bs + 1 := by
          simp [lcpNP, hx]
        have h2 : lcpNP pop (x :: bs) (x :: bs) = lcpNP pop bs bs + 1 := by
          simp [lcpNP, hx]
        rw [h1, h2]
        have := ih bs
        omega
      · simp only [lcpNP]
        rw [if_neg h]
        exact Nat.zero_le _

/-- A row of the `flmCore` fold keeps its accumulator when every cell
of the row is dominated by the recorded match length. -/
theorem flmCore_inner_keep (pop a b : List Char) :
    ∀ (js : List Nat) (i : Nat) (best : Nat × Nat × Nat),
      (∀ j ∈ js, lcpNP pop (a.drop i) (b.drop j) ≤ best.2.2) →
      List.foldl
        (fun best' j =>
          let k := lcpNP pop (a.drop i) (b.drop j)
          if k > best'.2.2 then (i, j, k) else best')
        best js = best := by
  intro js
  induction js with
  | nil => intro i best _; rfl
  | cons j js' ih =>
    intro i best hb
    simp only [List.foldl_cons]
    rw [if_neg (by have := hb j (List.mem_cons_self _ _); omega)]
    exact ih i best (fun m hm => hb m (List.mem_cons_of_mem _ hm))

/-- Splitting an index range at a row index below its bound. -/
theorem range_split_at (L i : Nat) (hi : i < L) :
    List.range L = List.range i ++ i ::
      List.map (fun t => i + Nat.succ t) (List.range (L - i - 1)) := by
  conv_lhs => rw [show L = i + ((L - i - 1) + 1) from by omega]
  rw [List.range_add, List.range_succ_eq_map, List.map_cons]
  simp [List.map_map, Function.comp]

/-- Processing one row of `flmCore` on identical inputs: the
accumulator stays `(0, 0, 0)`-or-diagonal, its match length never
decreases, and afterwards it dominates the diagonal value of this
row.  Off-diagonal cells can never win: a cell left of the diagonal
is dominated by its own column's diagonal (already recorded), one
right of the diagonal by this row's diagonal (recorded first). -/
theorem flmCore_row_self (pop s : List Char) (i : Nat)
    (best : Nat × Nat × Nat)
    (hP : best = (0, 0, 0) ∨ ∃ p, p < s.length ∧
      best = (p, p, lcpNP pop (s.drop p) (s.drop p)))
    (hdom : ∀ j, j < i → j < s.length →
      lcpNP pop (s.drop j) (s.drop j) ≤ best.2.2) :
    ((List.range s.length).foldl
        (fun best' j =>
          let k := lcpNP pop (s.drop i) (s.drop j)
          if k > best'.2.2 then (i, j, k) else best')
        best = (0, 0, 0) ∨
      ∃ p, p < s.length ∧
        (List.range s.length).foldl
          (fun best' j =>
            let k := lcpNP pop (s.drop i) (s.drop j)
            if k > best'.2.2 then (i, j, k) else best')
          best = (p, p, lcpNP pop (s.drop p) (s.drop p))) ∧
    best.2.2 ≤
      ((List.range s.length).foldl
        (fun best' j =>
          let k := lcpNP pop (s.drop i) (s.drop j)
          if k > best'.2.2 then (i, j, k) else best')
        best).2.2 ∧
    (i < s.length →
      lcpNP pop (s.drop i) (s.drop i) ≤
        ((List.range s.length).foldl
          (fun best' j =>
            let k := lcpNP pop (s.drop i) (s.drop j)
            if k > best'.2.2 then (i, j, k) else best')
          best).2.2) := by
  by_cases hi : i < s.length
  · have hA : ∀ j ∈ List.range i,
        lcpNP pop (s.drop i) (s.drop j) ≤ best.2.2 := by
      intro j hj
      rw [List.mem_range] at hj
      exact le_trans (lcpNP_le_self_right pop (s.drop i) (s.drop j))
        (hdom j hj (by omega))
    by_cases hgi : best.2.2 < lcpNP pop (s.drop i) (s.drop i)
    · have hfold : (List.range s.length).foldl
          (fun best' j =>
            let k := lcpNP pop (s.drop i) (s.drop j)
            if k > best'.2.2 then (i, j, k) else best')
          best = (i, i, lcpNP pop (s.drop i) (s.drop i)) := by
        rw [range_split_at s.length i hi, List.foldl_append]
        rw [flmCore_inner_keep pop s s (List.range i) i best hA]
        rw [List.foldl_cons]
        refine Eq.trans ?_ (flmCore_inner_keep pop s s
          (List.map (fun t => i + Nat.succ t)
            (List.range (s.length - i - 1))) i
          (i, i, lcpNP pop (s.drop i) (s.drop i)) ?_)
        · congr 1
          simp [hgi]
        · intro j hj
          simp only [List.mem_map] at hj
          obtain ⟨t, _, rfl⟩ := hj
          exact lcpNP_le_self_left pop (s.drop i) _
      rw [hfold]
      exact ⟨Or.inr ⟨i, hi, rfl⟩, by simp; omega, fun _ => le_rfl⟩
    · have hfold : (List.range s.length).foldl
          (fun best' j =>
            let k := lcpNP pop (s.drop i) (s.drop j)
            if k > best'.2.2 then (i, j, k) else best')
          best = best := by
        rw [range_split_at s.length i hi, List.foldl_append]
        rw [flmCore_inner_keep pop s s (List.range i) i best hA]
        rw [List.foldl_cons]
        refine Eq.trans ?_ (flmCore_inner_keep pop s s
          (List.map (fun t => i + Nat.succ t)
            (List.range (s.length - i - 1))) i best ?_)
        · congr 1
          simp [hgi]
        · intro j hj
          simp only [List.mem_map] at hj
          obtain ⟨t, _, rfl⟩ := hj
          exact le_trans (lcpNP_le_self_left pop (s.drop i) _) (by omega)
      rw [hfold]
      exact ⟨hP, le_rfl, fun _ => by omega⟩
  · have hfold : (List.range s.length).foldl
        (fun best' j =>
          let k := lcpNP pop (s.drop i) (s.drop j)
          if k > best'.2.2 then (i, j, k) else best')
        best = best := by
      refine flmCore_inner_keep pop s s _ i best ?_
      intro j hj
      rw [List.mem_range] at hj
      exact le_trans (lcpNP_le_self_right pop (s.drop i) (s.drop j))
        (hdom j (by omega) hj)
    rw [hfold]
    exact ⟨hP, le_rfl, fun h => absurd h hi⟩

/-- After any number of rows of `flmCore` on identical inputs, the
accumulator is `(0, 0, 0)` or a true diagonal entry, and it dominates
every processed diagonal. -/
theorem flmCore_outer_self (pop s : List Char) :
    ∀ m : Nat,
      ((List.range m).foldl
          (fun best i =>
            (List.range s.length).foldl
              (fun best' j =>
                let k := lcpNP pop (s.drop i) (s.drop j)
                if k > best'.2.2 then (i, j, k) else best')
              best)
          (0, 0, 0) = (0, 0, 0) ∨
        ∃ p, p < s.length ∧
          (List.range m).foldl
            (fun best i =>
              (List.range s.length).foldl
                (fun best' j =>
                  let k := lcpNP pop (s.drop i) (s.drop j)
                  if k > best'.2.2 then (i, j, k) else best')
                best)
            (0, 0, 0) = (p, p, lcpNP pop (s.drop p) (s.drop p))) ∧
      (∀ j, j < m → j < s.length →
        lcpNP pop (s.drop j) (s.drop j) ≤
          ((List.range m).foldl
            (fun best i =>
              (List.range s.length).foldl
                (fun best' j =>
                  let k := lcpNP pop (s.drop i) (s.drop j)
                  if k > best'.2.2 then (i, j, k) else best')
                best)
            (0, 0, 0)).2.2) := by
  intro m
  induction m with
  | zero => exact ⟨Or.inl rfl, by omega⟩
  | succ m ih =>
    obtain ⟨ihP, ihdom⟩ := ih
    rw [List.range_succ, List.foldl_append, List.foldl_cons,
      List.foldl_nil]
    obtain ⟨hP, hmono, hdiag⟩ := flmCore_row_self pop s m _ ihP ihdom
    refine ⟨hP, ?_⟩
    intro j hj hjL
    rcases Nat.lt_succ_iff_lt_or_eq.mp hj with h | h
    · exact le_trans (ihdom j h hjL) hmono
    · subst h
      exact hdiag hjL

/-- `flmCore` on identical inputs yields `(0, 0, 0)` or a diagonal
entry carrying its own popular-avoiding run length. -/
theorem flmCore_self (pop s : List Char) :
    flmCore pop s s = (0, 0, 0) ∨
      ∃ p, p < s.length ∧
        flmCore pop s s = (p, p, lcpNP pop (s.drop p) (s.drop p)) :=
  (flmCore_outer_self pop s s.length).1

/-- On identical inputs `find_longest_match` returns the whole
string: a diagonal core extends greedily to the full diagonal. -/
theorem flm_self (pop s : List Char) : flm pop s s = (0, 0, s.length) := by
  unfold flm
  rcases flmCore_self pop s with h0 | ⟨p, hp, hep⟩
  · rw [h0]
    simp only [extendMatch]
    rw [List.take_zero]
    simp only [List.reverse_nil]
    rw [show lcp [] [] = 0 from rfl]
    simp only [Nat.add_zero, Nat.zero_add, List.drop_zero]
    rw [lcp_self]
  · rw [hep]
    have hk : lcpNP pop (s.drop p) (s.drop p) ≤ s.length - p := by
      have h1 := lcpNP_le_left pop (s.drop p) (s.drop p)
      rw [List.length_drop] at h1
      exact h1
    have hel : lcp ((s.take p).reverse) ((s.take p).reverse) = p := by
      rw [lcp_self, List.length_reverse, List.length_take]
      omega
    have her : lcp (s.drop (p + lcpNP pop (s.drop p) (s.drop p)))
        (s.drop (p + lcpNP pop (s.drop p) (s.drop p))) =
        s.length - (p + lcpNP pop (s.drop p) (s.drop p)) := by
      rw [lcp_self, List.length_drop]
    simp only [extendMatch, hel, her, Prod.mk.injEq]
    refine ⟨by omega, by omega, by omega⟩

/-- With any fuel, two empty inputs have no matched characters. -/
theorem matchTotal_nil (pop : List Char) :
    ∀ fuel : Nat, matchTotal pop fuel [] [] = 0 := by
  intro fuel
  cases fuel <;> rfl

/-- A nonempty string matched against itself matches every
character, popular characters included (via the greedy
extensions). -/
theorem matchSum_self (s : String) (h : s ≠ "") : matchSum s s = s.length := by
  have hd : s.data ≠ [] := by
    intro hnil
    exact h (String.ext hnil)
  have hlen : s.length = s.data.length := rfl
  have hpos : 0 < s.data.length := List.length_pos.mpr hd
  unfold matchSum
  have hfuel : s.length + s.length + 1 = (s.length + s.length) + 1 := rfl
  rw [hfuel]
  show (match flm (popularChars s.data) s.data s.data with
    | (i, j, k) =>
      if k = 0 then 0
      else matchTotal (popularChars s.data) (s.length + s.length)
          (s.data.take i) (s.data.take j) + k +
        matchTotal (popularChars s.data) (s.length + s.length)
          (s.data.drop (i + k)) (s.data.drop (j + k))) = s.length
  rw [flm_self (popularChars s.data) s.data]
  simp only
  rw [if_neg (by omega)]
  rw [List.take_zero, Nat.zero_add, hlen.symm]
  have hdrop : s.data.drop s.length = [] := by
    rw [hlen]
    exact List.drop_length s.data
  rw [hdrop, matchTotal_nil]
  omega

/-- The similarity ratio of a nonempty string with itself is `1`. -/
theorem ratioVal_self (s : String) (h : s ≠ "") : ratioVal s s = 1 := by
  have hd : s.data ≠ [] := fun hnil => h (String.ext hnil)
  have hpos : 0 < s.length := List.length_pos.mpr hd
  unfold ratioVal
  rw [if_neg (by omega)]
  rw [matchSum_self s h]
  have hq : ((s.length + s.length : Nat) : ℚ) = 2 * (s.length : ℚ) := by
    push_cast; ring
  rw [hq]
  have hne : (s.length : ℚ) ≠ 0 := by
    exact_mod_cast Nat.pos_iff_ne_zero.mp hpos
  field_simp

/-! ### Threshold bridges: exact rationals vs cross-multiplied
integers -/

/-- The 0.82 ratio test is the cross-multiplied integer test
evaluated by `near_duplicate`. -/
theorem ratio_ge_iff (a b : String) :
    ((0.82 : ℚ) ≤ ratioVal a b) ↔
      82 * (a.length + b.length) ≤ 200 * matchSum a b := by
  unfold ratioVal
  by_cases h : a.length + b.length = 0
  · rw [if_pos h, h]
    constructor
    · intro _; simp
    · intro _; norm_num
  · rw [if_neg h]
    have hT : (0 : ℚ) < ((a.length + b.length : Nat) : ℚ) := by
      exact_mod_cast Nat.pos_of_ne_zero h
    rw [show (0.82 : ℚ) = 82 / 100 by norm_num]
    rw [div_le_div_iff₀ (by norm_num) hT]
    constructor
    · intro h'
      have h2 : (82 * (a.length + b.length) : ℚ) ≤
          (200 * matchSum a b : ℚ) := by push_cast at h' ⊢; linarith
      exact_mod_cast h2
    · intro h'
      have h2 : ((82 * (a.length + b.length) : Nat) : ℚ) ≤
          ((200 * matchSum a b : Nat) : ℚ) := Nat.cast_le.mpr h'
      push_cast at h2 ⊢
      linarith

/-- The 0.75 Jaccard test is the cross-multiplied integer test
evaluated by `near_duplicate`. -/
theorem jaccard_ge_iff (ta tb : Finset String) :
    ((0.75 : ℚ) ≤ jaccardQ ta tb) ↔
      3 * max 1 (ta ∪ tb).card ≤ 4 * (ta ∩ tb).card := by
  unfold jaccardQ
  have hpos : 0 < max 1 (ta ∪ tb).card := by omega
  have hT : (0 : ℚ) < ((max 1 (ta ∪ tb).card : Nat) : ℚ) := by
    exact_mod_cast hpos
  rw [show (0.75 : ℚ) = 3 / 4 by norm_num]
  rw [div_le_div_iff₀ (by norm_num) hT]
  constructor
  · intro h'
    have h2 : (3 * max 1 (ta ∪ tb).card : ℚ) ≤
        (4 * (ta ∩ tb).card : ℚ) := by push_cast at h' ⊢; linarith
    exact_mod_cast h2
  · intro h'
    have h2 : ((3 * max 1 (ta ∪ tb).card : Nat) : ℚ) ≤
        ((4 * (ta ∩ tb).card : Nat) : ℚ) := Nat.cast_le.mpr h'
    push_cast at h2 ⊢
    linarith

/-! ### `near_duplicate` lemmas -/

/-- A pair with an empty normalized title on either side never
matches. -/
theorem near_duplicate_empty {a b : String}
    (h : norm_title a = "" ∨ norm_title b = "") :
    near_duplicate a b = false := by
  rcases h with h | h <;> simp [near_duplicate, h]

/-- A title whose normalized form is nonempty matches itself. -/
theorem near_duplicate_self (t : String) (h : norm_title t ≠ "") :
    near_duplicate t t = true := by
  simp only [near_duplicate]
  rw [if_neg (by simp [h])]
  by_cases hta : (token_set t).card = 0
  · have hcond : (((token_set t).card != 0 && (token_set t).card != 0) &&
        decide (3 * max 1 (token_set t ∪ token_set t).card ≤
          4 * (token_set t ∩ token_set t).card)) = false := by
      simp [hta]
    rw [hcond, if_neg (by simp)]
    rw [matchSum_self _ h]
    simp only [decide_eq_true_eq]
    omega
  · have hcond : (((token_set t).card != 0 && (token_set t).card != 0) &&
        decide (3 * max 1 (token_set t ∪ token_set t).card ≤
          4 * (token_set t ∩ token_set t).card)) = true := by
      simp only [Finset.union_self, Finset.inter_self, Bool.and_eq_true,
        bne_iff_ne, ne_eq, decide_eq_true_eq]
      refine ⟨⟨hta, hta⟩, ?_⟩
      omega
    rw [hcond, if_pos rfl]

/-- Claim C1: for every pair of titles whose normalized forms are
both nonempty, `near_duplicate` returns `true` exactly when the
token-set Jaccard similarity `|A ∩ B| / max(1, |A ∪ B|)` reaches 0.75
or the character-level similarity ratio of the two normalized strings
reaches 0.82; and for every pair in which at least one normalized
title is empty, it returns `false`. -/
theorem claim_C1 (a b : String) :
    (norm_title a ≠ "" ∧ norm_title b ≠ "" →
      (near_duplicate a b = true ↔
        (0.75 : ℚ) ≤ jaccardQ (token_set a) (token_set b) ∨
        (0.82 : ℚ) ≤ ratioVal (norm_title a) (norm_title b))) ∧
    ((norm_title a = "" ∨ norm_title b = "") →
      near_duplicate a b = false) := by
  constructor
  · rintro ⟨ha, hb⟩
    rw [jaccard_ge_iff, ratio_ge_iff]
    simp only [near_duplicate]
    rw [if_neg (by simp [ha, hb])]
    by_cases hta : (token_set a).card = 0
    · have hempty : token_set a = ∅ := Finset.card_eq_zero.mp hta
      rw [show (((token_set a).card != 0 && (token_set b).card != 0) &&
          decide (3 * max 1 (token_set a ∪ token_set b).card ≤
            4 * (token_set a ∩ token_set b).card)) = false by simp [hta]]
      rw [if_neg (by simp)]
      have hjf : ¬ (3 * max 1 (token_set a ∪ token_set b).card ≤
          4 * (token_set a ∩ token_set b).card) := by
        rw [hempty, Finset.empty_inter, Finset.card_empty]
        omega
      simp [hjf]
    · by_cases htb : (token_set b).card = 0
      · have hempty : token_set b = ∅ := Finset.card_eq_zero.mp htb
        rw [show (((token_set a).card != 0 && (token_set b).card != 0) &&
            decide (3 * max 1 (token_set a ∪ token_set b).card ≤
              4 * (token_set a ∩ token_set b).card)) = false by simp [htb]]
        rw [if_neg (by simp)]
        have hjf : ¬ (3 * max 1 (token_set a ∪ token_set b).card ≤
            4 * (token_set a ∩ token_set b).card) := by
          rw [hempty, Finset.inter_empty, Finset.card_empty]
          omega
        simp [hjf]
      · by_cases hj : 3 * max 1 (token_set a ∪ token_set b).card ≤
            4 * (token_set a ∩ token_set b).card
        · rw [show (((token_set a).card != 0 && (token_set b).card != 0) &&
              decide (3 * max 1 (token_set a ∪ token_set b).card ≤
                4 * (token_set a ∩ token_set b).card)) = true by
            simp [hta, htb, hj]]
          rw [if_pos rfl]
          simp [hj]
        · rw [show (((token_set a).card != 0 && (token_set b).card != 0) &&
              decide (3 * max 1 (token_set a ∪ token_set b).card ≤
                4 * (token_set a ∩ token_set b).card)) = false by
            simp [hj]]
          rw [if_neg (by simp)]
          simp [hj]
  · exact near_duplicate_empty

/-- Witness for claim C1 at the concrete pair
`("cebu city news", "cebu city news")`. -/
theorem claim_C1_witness :
    (norm_title "cebu city news" ≠ "" ∧ norm_title "cebu city news" ≠ "") ∧
    (near_duplicate "cebu city news" "cebu city news" = true ↔
      (0.75 : ℚ) ≤ jaccardQ (token_set "cebu city news")
        (token_set "cebu city news") ∨
      (0.82 : ℚ) ≤ ratioVal (norm_title "cebu city news")
        (norm_title "cebu city news")) :=
  ⟨⟨by decide, by decide⟩,
   (claim_C1 "cebu city news" "cebu city news").1 ⟨by decide, by decide⟩⟩

/-- Claim C5 (amended): `near_duplicate t t = true` holds for every
title whose NORMALIZED form is nonempty (not for every nonempty
title: a title consisting only of punctuation normalizes to the empty
string and does not match itself); and any title with empty
normalized form — in particular the empty title — matches nothing. -/
theorem claim_C5 (t x : String) :
    (norm_title t ≠ "" → near_duplicate t t = true) ∧
    (norm_title t = "" → near_duplicate t x = false) ∧
    near_duplicate "" x = false := by
  refine ⟨near_duplicate_self t, ?_, ?_⟩
  · intro h
    exact near_duplicate_empty (Or.inl h)
  · exact near_duplicate_empty (Or.inl (by decide))

/-- Counterexample to claim C5 as stated: the title `"?"` is
nonempty, yet `near_duplicate "?" "?"` is `false` (its normalized
form is empty). -/
theorem claim_C5_counterexample :
    ("?" : String) ≠ "" ∧ near_duplicate "?" "?" = false :=
  ⟨by decide, by decide⟩

/-- Witness for claim C5 at the concrete titles `"cebu news"`
and `"?"`. -/
theorem claim_C5_witness :
    (norm_title "cebu news" ≠ "" ∧
      near_duplicate "cebu news" "cebu news" = true) ∧
    (norm_title "?" = "" ∧ near_duplicate "?" "zzz" = false) :=
  ⟨⟨by decide, (claim_C5 "cebu news" "x").1 (by decide)⟩,
   ⟨by decide, (claim_C5 "?" "zzz").2.1 (by decide)⟩⟩

/-- Claim C10 (amended): `norm_title` is a deterministic total
function, but it is NOT idempotent: punctuation is stripped after
whitespace runs are collapsed, so removing a punctuation character
between two spaces leaves a double space that only the next pass
collapses.  What does hold is that a second pass reaches a fixed
point: `norm_title (norm_title t)` is fixed by `norm_title` for every
title `t`. -/
theorem claim_C10 (t : String) :
    norm_title (norm_title (norm_title t)) = norm_title (norm_title t) := by
  unfold norm_title
  exact congrArg String.mk (normChars_fixed_of_two t.data)

/-- Counterexample to claim C10 as stated: normalizing `"a . b"`
yields `"a  b"` (double space), which normalizes again to `"a b"`. -/
theorem claim_C10_counterexample :
    norm_title (norm_title "a . b") ≠ norm_title "a . b" ∧
    norm_title "a . b" = "a  b" ∧ norm_title (norm_title "a . b") = "a b" :=
  ⟨by decide, by decide, by decide⟩

/-! ### `dedupe_by_similarity` lemmas -/

/-- Running the de-dupe loop appends a subsequence of the incoming
items to the kept list. -/
theorem dedupeAux_eq_append :
    ∀ (l kept : List Cand), ∃ l', dedupeAux kept l = kept ++ l' ∧
      l'.Sublist l := by
  intro l
  induction l with
  | nil => intro kept; exact ⟨[], by simp [dedupeAux]⟩
  | cons it rest ih =>
    intro kept
    by_cases hc : kept.any (fun k => near_duplicate it.title k.title)
    · obtain ⟨l', hl', hs⟩ := ih kept
      refine ⟨l', ?_, hs.cons it⟩
      rw [dedupeAux, if_pos hc]
      exact hl'
    · obtain ⟨l', hl', hs⟩ := ih (kept ++ [it])
      refine ⟨it :: l', ?_, hs.cons₂ it⟩
      rw [dedupeAux, if_neg hc, hl', List.append_assoc]
      rfl

/-- Every item of the kept list survives the rest of the loop. -/
theorem dedupeAux_kept_mem {k : Cand} :
    ∀ (l kept : List Cand), k ∈ kept → k ∈ dedupeAux kept l := by
  intro l kept hk
  obtain ⟨l', hl', _⟩ := dedupeAux_eq_append l kept
  rw [hl']
  exact List.mem_append_left _ hk

/-- An incoming item that does not survive the loop was dropped
because of a near-duplicate among the output items. -/
theorem dedupeAux_dropped :
    ∀ (l kept : List Cand) (it : Cand), it ∈ l →
      it ∉ dedupeAux kept l →
      ∃ k ∈ dedupeAux kept l, near_duplicate it.title k.title = true := by
  intro l
  induction l with
  | nil => intro kept it h; cases h
  | cons it0 rest ih =>
    intro kept it hmem hnot
    by_cases hc : kept.any (fun k => near_duplicate it0.title k.title)
    · rw [dedupeAux, if_pos hc] at hnot ⊢
      rcases List.mem_cons.mp hmem with h | h
      · subst h
        obtain ⟨k, hk, hnd⟩ := List.any_eq_true.mp hc
        exact ⟨k, dedupeAux_kept_mem rest kept hk, hnd⟩
      · exact ih kept it h hnot
    · rw [dedupeAux, if_neg hc] at hnot ⊢
      rcases List.mem_cons.mp hmem with h | h
      · subst h
        exact absurd (dedupeAux_kept_mem rest (kept ++ [it])
          (List.mem_append_right _ (List.mem_singleton_self it))) hnot
      · exact ih (kept ++ [it0]) it h hnot

/-- The output of the de-dupe loop is pairwise non-near-duplicate
(later title never near-duplicates an earlier one), provided the
initial kept list already is. -/
theorem dedupeAux_pairwise :
    ∀ (l kept : List Cand),
      List.Pairwise (fun x y => near_duplicate y.title x.title = false)
        kept →
      List.Pairwise (fun x y => near_duplicate y.title x.title = false)
        (dedupeAux kept l) := by
  intro l
  induction l with
  | nil => intro kept hk; exact hk
  | cons it rest ih =>
    intro kept hk
    by_cases hc : kept.any (fun k => near_duplicate it.title k.title)
    · rw [dedupeAux, if_pos hc]
      exact ih kept hk
    · rw [dedupeAux, if_neg hc]
      refine ih (kept ++ [it]) ?_
      rw [List.pairwise_append]
      refine ⟨hk, List.pairwise_singleton _ _, ?_⟩
      intro x hx y hy
      rw [List.mem_singleton] at hy
      rw [hy]
      have hfalse : kept.any (fun k => near_duplicate it.title k.title)
          = false := by
        cases hb : kept.any (fun k => near_duplicate it.title k.title)
        · rfl
        · exact absurd hb hc
      have := List.any_eq_false.mp hfalse x hx
      simpa using this

/-- The de-dupe loop processes a concatenation by processing the
first part and continuing with the resulting kept list: the kept
list at any position is exactly the de-dupe of the preceding
items. -/
theorem dedupeAux_append :
    ∀ (xs ys kept : List Cand),
      dedupeAux kept (xs ++ ys) = dedupeAux (dedupeAux kept xs) ys := by
  intro xs
  induction xs with
  | nil => intro ys kept; rfl
  | cons it rest ih =>
    intro ys kept
    by_cases hc : kept.any (fun k => near_duplicate it.title k.title)
    · rw [List.cons_append, dedupeAux, if_pos hc,
        show dedupeAux kept (it :: rest) = dedupeAux kept rest from
          by rw [dedupeAux, if_pos hc]]
      exact ih ys kept
    · rw [List.cons_append, dedupeAux, if_neg hc,
        show dedupeAux kept (it :: rest) = dedupeAux (kept ++ [it]) rest
          from by rw [dedupeAux, if_neg hc]]
      exact ih ys (kept ++ [it])

/-- A candidate with a near-duplicate among the kept items of its
prefix is dropped: the run continues as if it were absent. -/
theorem dedupe_step_dropped (l₁ l₂ : List Cand) (it : Cand)
    (h : ∃ k ∈ dedupe_by_similarity l₁,
      near_duplicate it.title k.title = true) :
    dedupe_by_similarity (l₁ ++ it :: l₂) =
      dedupeAux (dedupe_by_similarity l₁) l₂ := by
  rw [dedupe_by_similarity, show it :: l₂ = [it] ++ l₂ from rfl,
    (List.append_assoc l₁ [it] l₂).symm, dedupeAux_append,
    dedupeAux_append]
  have hc : (dedupeAux [] l₁).any
      (fun k => near_duplicate it.title k.title) = true := by
    rw [List.any_eq_true]
    obtain ⟨k, hk, hnd⟩ := h
    exact ⟨k, hk, hnd⟩
  rw [show dedupeAux (dedupeAux [] l₁) [it] = dedupeAux [] l₁ from
    by rw [dedupeAux, if_pos hc]; rfl]
  rfl

/-- A candidate with no near-duplicate among the kept items of its
prefix is appended to them, and the run continues from there. -/
theorem dedupe_step_kept (l₁ l₂ : List Cand) (it : Cand)
    (h : ∀ k ∈ dedupe_by_similarity l₁,
      near_duplicate it.title k.title = false) :
    dedupe_by_similarity (l₁ ++ it :: l₂) =
      dedupeAux (dedupe_by_similarity l₁ ++ [it]) l₂ := by
  rw [dedupe_by_similarity, show it :: l₂ = [it] ++ l₂ from rfl,
    (List.append_assoc l₁ [it] l₂).symm, dedupeAux_append,
    dedupeAux_append]
  have hc : (dedupeAux [] l₁).any
      (fun k => near_duplicate it.title k.title) = false := by
    rw [List.any_eq_false]
    intro k hk
    simp [h k hk]
  rw [show dedupeAux (dedupeAux [] l₁) [it] = dedupeAux [] l₁ ++ [it]
    from by rw [dedupeAux, if_neg (by simp [hc])]; rfl]
  rfl

/-- A candidate missing from the output was dropped at its own
position because of a near-duplicate among the items kept from the
preceding input. -/
theorem dedupe_dropped_at (l₁ l₂ : List Cand) (it : Cand)
    (h : it ∉ dedupe_by_similarity (l₁ ++ it :: l₂)) :
    ∃ k ∈ dedupe_by_similarity l₁,
      near_duplicate it.title k.title = true := by
  by_cases hc : (dedupe_by_similarity l₁).any
      (fun k => near_duplicate it.title k.title)
  · obtain ⟨k, hk, hnd⟩ := List.any_eq_true.mp hc
    exact ⟨k, hk, hnd⟩
  · exfalso
    have hall : ∀ k ∈ dedupe_by_similarity l₁,
        near_duplicate it.title k.title = false := by
      intro k hk
      have := List.any_eq_false.mp (by
        cases hb : (dedupe_by_similarity l₁).any
          (fun k => near_duplicate it.title k.title)
        · rfl
        · exact absurd hb hc) k hk
      simpa using this
    rw [dedupe_step_kept l₁ l₂ it hall] at h
    exact h (dedupeAux_kept_mem l₂ _
      (List.mem_append_right _ (List.mem_singleton_self it)))

/-- Claim C2: `dedupe_by_similarity` keeps the first occurrence.
The output is a subsequence of the input in input order; at every
position, a candidate is dropped exactly when its title
near-duplicates the title of an item kept from the preceding input,
and is otherwise appended to the kept list (so the output is
pairwise non-near-duplicate); a candidate missing from the output
always has such an earlier kept near-duplicate; and on a two-element
input whose second title near-duplicates the first, the result is
exactly the first item, while both survive when it does not. -/
theorem claim_C2 :
    (∀ l : List Cand, (dedupe_by_similarity l).Sublist l) ∧
    (∀ (l₁ l₂ : List Cand) (it : Cand),
      (∃ k ∈ dedupe_by_similarity l₁,
        near_duplicate it.title k.title = true) →
      dedupe_by_similarity (l₁ ++ it :: l₂) =
        dedupeAux (dedupe_by_similarity l₁) l₂) ∧
    (∀ (l₁ l₂ : List Cand) (it : Cand),
      (∀ k ∈ dedupe_by_similarity l₁,
        near_duplicate it.title k.title = false) →
      dedupe_by_similarity (l₁ ++ it :: l₂) =
        dedupeAux (dedupe_by_similarity l₁ ++ [it]) l₂) ∧
    (∀ (l₁ l₂ : List Cand) (it : Cand),
      it ∉ dedupe_by_similarity (l₁ ++ it :: l₂) →
      ∃ k ∈ dedupe_by_similarity l₁,
        near_duplicate it.title k.title = true) ∧
    (∀ l : List Cand,
      List.Pairwise (fun x y => near_duplicate y.title x.title = false)
        (dedupe_by_similarity l)) ∧
    (∀ a b : Cand, near_duplicate b.title a.title = true →
      dedupe_by_similarity [a, b] = [a]) ∧
    (∀ a b : Cand, near_duplicate b.title a.title = false →
      dedupe_by_similarity [a, b] = [a, b]) := by
  refine ⟨?_, dedupe_step_dropped, dedupe_step_kept, dedupe_dropped_at,
    ?_, ?_, ?_⟩
  · intro l
    obtain ⟨l', hl', hs⟩ := dedupeAux_eq_append l []
    rw [dedupe_by_similarity, hl']
    simpa using hs
  · intro l
    exact dedupeAux_pairwise l [] List.Pairwise.nil
  · intro a b h
    simp [dedupe_by_similarity, dedupeAux, h]
  · intro a b h
    simp [dedupe_by_similarity, dedupeAux, h]

/-- Witness for claim C2 at concrete candidates: the second title
near-duplicates the only kept item of the prefix, so it is dropped,
and the first occurrence wins. -/
theorem claim_C2_witness :
    (∃ k ∈ dedupe_by_similarity [⟨"cebu city mayor", "u1", "s1"⟩],
      near_duplicate "cebu city mayor" k.title = true) ∧
    dedupe_by_similarity
      ([⟨"cebu city mayor", "u1", "s1"⟩] ++
        ⟨"cebu city mayor", "u2", "s2"⟩ :: []) =
      dedupeAux
        (dedupe_by_similarity [⟨"cebu city mayor", "u1", "s1"⟩]) [] ∧
    near_duplicate "cebu city mayor" "cebu city mayor" = true ∧
    dedupe_by_similarity
      [⟨"cebu city mayor", "u1", "s1"⟩,
       ⟨"cebu city mayor", "u2", "s2"⟩] =
      [⟨"cebu city mayor", "u1", "s1"⟩] :=
  ⟨by decide,
   claim_C2.2.1 [⟨"cebu city mayor", "u1", "s1"⟩] []
     ⟨"cebu city mayor", "u2", "s2"⟩ (by decide),
   by decide,
   claim_C2.2.2.2.2.2.1 ⟨"cebu city mayor", "u1", "s1"⟩
     ⟨"cebu city mayor", "u2", "s2"⟩ (by decide)⟩

/-- Claim C9 (amended): `dedupe_by_similarity` compares titles only
and does NOT re-apply exact-URL de-duplication: two candidates with
the same URL but dissimilar titles both survive (see the
counterexample).  URL de-duplication holds only under the extra
assumption that same-URL candidates carry the same title with a
nonempty normalized form — then no two output items share a URL. -/
theorem claim_C9 (items : List Cand)
    (h : ∀ c1 ∈ items, ∀ c2 ∈ items, c1.url = c2.url →
      c1.title = c2.title ∧ norm_title c1.title ≠ "") :
    List.Pairwise (fun x y => x.url ≠ y.url)
      (dedupe_by_similarity items) := by
  have hp := dedupeAux_pairwise items [] List.Pairwise.nil
  have hsub : ∀ c ∈ dedupe_by_similarity items, c ∈ items := by
    obtain ⟨l', hl', hs⟩ := dedupeAux_eq_append items []
    rw [dedupe_by_similarity, hl']
    intro c hc
    exact hs.subset (by simpa using hc)
  refine List.Pairwise.imp_of_mem ?_ hp
  intro x y hx hy hR hurl
  obtain ⟨hteq, hn⟩ := h x (hsub x hx) y (hsub y hy) hurl
  have htrue : near_duplicate y.title x.title = true := by
    rw [← hteq]
    exact near_duplicate_self x.title hn
  rw [htrue] at hR
  cases hR

/-- Counterexample to claim C9 as stated: two candidates with the
same URL but dissimilar titles both survive `dedupe_by_similarity`,
so the output contains a repeated URL. -/
theorem claim_C9_counterexample :
    dedupe_by_similarity
      [⟨"abc def", "u", "s1"⟩, ⟨"uvw xyz", "u", "s2"⟩] =
      [⟨"abc def", "u", "s1"⟩, ⟨"uvw xyz", "u", "s2"⟩] ∧
    ¬ List.Pairwise (fun x y => x.url ≠ y.url)
      (dedupe_by_similarity
        [⟨"abc def", "u", "s1"⟩, ⟨"uvw xyz", "u", "s2"⟩]) :=
  ⟨by decide, by decide⟩

/-- Witness for claim C9 (amended) at a concrete same-URL,
same-title input. -/
theorem claim_C9_witness :
    (∀ c1 ∈ ([⟨"cebu city news", "u", "s1"⟩,
        ⟨"cebu city news", "u", "s2"⟩] : List Cand),
      ∀ c2 ∈ ([⟨"cebu city news", "u", "s1"⟩,
        ⟨"cebu city news", "u", "s2"⟩] : List Cand),
      c1.url = c2.url → c1.title = c2.title ∧ norm_title c1.title ≠ "") ∧
    List.Pairwise (fun x y => x.url ≠ y.url)
      (dedupe_by_similarity
        [⟨"cebu city news", "u", "s1"⟩, ⟨"cebu city news", "u", "s2"⟩]) :=
  ⟨by decide, claim_C9 _ (by decide)⟩

/-- Claim C3: given a resolved publication instant the freshness
classifier declares the item fresh exactly when
`now - dt ≤ max_age_hours` hours, with an inclusive boundary; under
a 24-hour horizon an item published 23 hours ago is fresh, one
published exactly 24 hours ago is fresh, one published 25 hours ago
is stale; and an item with no resolvable instant is fresh. -/
theorem claim_C3 (resolve : String → Option Int) (now : Int)
    (url : String) (h : Int) :
    (∀ dt, resolve url = some dt →
      (is_fresh resolve now url h = true ↔ now - dt ≤ h * 3600)) ∧
    (resolve url = none → is_fresh resolve now url h = true) ∧
    is_fresh (fun _ => some (now - 23 * 3600)) now url 24 = true ∧
    is_fresh (fun _ => some (now - 24 * 3600)) now url 24 = true ∧
    is_fresh (fun _ => some (now - 25 * 3600)) now url 24 = false ∧
    is_fresh (fun _ => none) now url 24 = true := by
  refine ⟨?_, ?_, ?_, ?_, ?_, rfl⟩
  · intro dt hdt
    simp [is_fresh, hdt]
  · intro hnone
    simp [is_fresh, hnone]
  · simp [is_fresh]
  · simp [is_fresh]
  · simp [is_fresh]

/-- Witness for claim C3 at `now = 3600`, instant `0`, horizon 24
hours. -/
theorem claim_C3_witness :
    ((fun _ : String => some (0 : Int)) "u" = some 0) ∧
    (is_fresh (fun _ => some 0) 3600 "u" 24 = true ↔
      (3600 : Int) - 0 ≤ 24 * 3600) :=
  ⟨rfl, (claim_C3 (fun _ => some 0) 3600 "u" 24).1 0 rfl⟩

/-! ### Selection lemmas -/

/-- The seen-and-freshness filter yields a subsequence of its
input. -/
theorem selectFresh_sublist (seen : Finset String)
    (fresh : String → Bool) :
    ∀ l : List Cand, (selectFresh seen fresh l).Sublist l := by
  intro l
  induction l with
  | nil => simp [selectFresh]
  | cons it rest ih =>
    rw [selectFresh]
    by_cases hs : it.url ∈ seen
    · rw [if_pos hs]
      exact ih.cons it
    · rw [if_neg hs]
      by_cases hf : fresh it.url
      · rw [if_pos hf]
        exact ih.cons₂ it
      · rw [if_neg hf]
        exact ih.cons it

/-- Everything the filter keeps is unseen and fresh. -/
theorem selectFresh_mem (seen : Finset String) (fresh : String → Bool) :
    ∀ (l : List Cand) (it : Cand), it ∈ selectFresh seen fresh l →
      it.url ∉ seen ∧ fresh it.url = true := by
  intro l
  induction l with
  | nil => intro it h; cases h
  | cons it0 rest ih =>
    intro it h
    rw [selectFresh] at h
    by_cases hs : it0.url ∈ seen
    · rw [if_pos hs] at h
      exact ih it h
    · rw [if_neg hs] at h
      by_cases hf : fresh it0.url
      · rw [if_pos hf] at h
        rcases List.mem_cons.mp h with h' | h'
        · subst h'
          exact ⟨hs, hf⟩
        · exact ih it h'
      · rw [if_neg hf] at h
        exact ih it h

/-- On an all-unseen, all-fresh input the filter keeps everything. -/
theorem selectFresh_all (seen : Finset String) (fresh : String → Bool) :
    ∀ l : List Cand,
      (∀ it ∈ l, it.url ∉ seen ∧ fresh it.url = true) →
      selectFresh seen fresh l = l := by
  intro l
  induction l with
  | nil => intro _; rfl
  | cons it rest ih =>
    intro h
    obtain ⟨hs, hf⟩ := h it (List.mem_cons_self _ _)
    rw [selectFresh, if_neg hs, if_pos hf]
    rw [ih (fun x hx => h x (List.mem_cons_of_mem _ hx))]

/-- Claim C4: selection drops every candidate whose URL is in the
seen set, keeps only fresh candidates, truncates to at most `cap`
items, and preserves the aggregation order (the output is a
subsequence of the input); on an input of all-fresh, all-unseen
candidates exactly the first `cap` are selected. -/
theorem claim_C4 (seen : Finset String) (fresh : String → Bool)
    (cap : Nat) (items : List Cand) :
    (selectForRun seen fresh cap items).Sublist items ∧
    (∀ it ∈ selectForRun seen fresh cap items,
      it.url ∉ seen ∧ fresh it.url = true) ∧
    (selectForRun seen fresh cap items).length ≤ cap ∧
    ((∀ it ∈ items, it.url ∉ seen ∧ fresh it.url = true) →
      selectForRun seen fresh cap items = items.take cap) := by
  refine ⟨?_, ?_, ?_, ?_⟩
  · exact (List.take_sublist _ _).trans (selectFresh_sublist seen fresh items)
  · intro it hmem
    exact selectFresh_mem seen fresh items it (List.take_subset _ _ hmem)
  · exact List.length_take_le _ _
  · intro h
    rw [selectForRun, selectFresh_all seen fresh items h]

/-- Witness for claim C4: ten fresh unseen candidates and the code's
cap of 5 select exactly the first five, in order. -/
theorem claim_C4_witness :
    (∀ it ∈ ([⟨"t", "u0", "s"⟩, ⟨"t", "u1", "s"⟩, ⟨"t", "u2", "s"⟩,
        ⟨"t", "u3", "s"⟩, ⟨"t", "u4", "s"⟩, ⟨"t", "u5", "s"⟩,
        ⟨"t", "u6", "s"⟩, ⟨"t", "u7", "s"⟩, ⟨"t", "u8", "s"⟩,
        ⟨"t", "u9", "s"⟩] : List Cand),
      it.url ∉ (∅ : Finset String) ∧ (fun _ => true) it.url = true) ∧
    selectForRun ∅ (fun _ => true) MAX_POSTS_PER_RUN
      [⟨"t", "u0", "s"⟩, ⟨"t", "u1", "s"⟩, ⟨"t", "u2", "s"⟩,
       ⟨"t", "u3", "s"⟩, ⟨"t", "u4", "s"⟩, ⟨"t", "u5", "s"⟩,
       ⟨"t", "u6", "s"⟩, ⟨"t", "u7", "s"⟩, ⟨"t", "u8", "s"⟩,
       ⟨"t", "u9", "s"⟩] =
      List.take MAX_POSTS_PER_RUN
        [⟨"t", "u0", "s"⟩, ⟨"t", "u1", "s"⟩, ⟨"t", "u2", "s"⟩,
         ⟨"t", "u3", "s"⟩, ⟨"t", "u4", "s"⟩, ⟨"t", "u5", "s"⟩,
         ⟨"t", "u6", "s"⟩, ⟨"t", "u7", "s"⟩, ⟨"t", "u8", "s"⟩,
         ⟨"t", "u9", "s"⟩] :=
  ⟨by decide, (claim_C4 ∅ (fun _ => true) MAX_POSTS_PER_RUN _).2.2.2
    (by decide)⟩

/-! ### Publish-loop lemmas -/

/-- Closed form of the posting loop: the working seen set gains
exactly the URLs of the successfully published candidates, and the
counter counts them. -/
theorem publishRun_go (pub : Cand → Bool) :
    ∀ (l : List Cand) (s : Finset String) (n : Nat),
      List.foldl (publishStep pub) (s, n) l =
        (s ∪ ((l.filter (fun it => pub it)).map
            (fun it => it.url)).toFinset,
         n + (l.filter (fun it => pub it)).length) := by
  intro l
  induction l with
  | nil => intro s n; simp
  | cons it rest ih =>
    intro s n
    rw [List.foldl_cons]
    by_cases hp : pub it
    · rw [show publishStep pub (s, n) it = (insert it.url s, n + 1) from
        by simp [publishStep, hp]]
      rw [ih (insert it.url s) (n + 1)]
      rw [List.filter_cons_of_pos (by simpa using hp)]
      rw [Prod.ext_iff]
      constructor
      · simp [Finset.insert_union, Finset.union_insert]
      · simp
        omega
    · rw [show publishStep pub (s, n) it = (s, n) from
        by simp [publishStep, hp]]
      rw [ih s n]
      rw [List.filter_cons_of_neg (by simpa using hp)]

/-- Claim C6: a URL is added to the working seen set exactly by a
successful publish of a candidate carrying it (failures add nothing
and the loop continues through the remaining candidates), the
success counter counts the successful publishes, and when no publish
succeeds the persisted state file is not rewritten. -/
theorem claim_C6 (pub : Cand → Bool) (toPost : List Cand)
    (seen : Finset String) :
    (publishRun pub toPost seen).1 =
      seen ∪ ((toPost.filter (fun it => pub it)).map
        (fun it => it.url)).toFinset ∧
    (publishRun pub toPost seen).2 =
      (toPost.filter (fun it => pub it)).length ∧
    ((∀ it ∈ toPost, pub it = false) →
      runSave pub toPost seen = none) := by
  refine ⟨?_, ?_, ?_⟩
  · rw [publishRun, publishRun_go]
  · rw [publishRun, publishRun_go]
    simp
  · intro h
    have hfil : toPost.filter (fun it => pub it) = [] := by
      rw [List.filter_eq_nil_iff]
      intro a ha
      simp [h a ha]
    simp [runSave, publishRun, publishRun_go, hfil]

/-- Witness for claim C6: a run in which the only publish fails
leaves the persisted state untouched. -/
theorem claim_C6_witness :
    (∀ it ∈ ([⟨"t", "u", "s"⟩] : List Cand),
      (fun _ : Cand => false) it = false) ∧
    runSave (fun _ => false) [⟨"t", "u", "s"⟩] ∅ = none :=
  ⟨by decide, (claim_C6 (fun _ => false) [⟨"t", "u", "s"⟩] ∅).2.2
    (by decide)⟩

/-- Claim C8: state persistence round-trips — the persisted content
is the sorted, duplicate-free array of the identifiers; loading the
content written for `S` yields exactly `S`; hence
`save (load (save S)) = save S`. -/
theorem claim_C8 (S : Finset String) :
    save_state (load_state (save_state S)) = save_state S ∧
    load_state (save_state S) = S ∧
    List.Sorted (fun a b => a ≤ b) (save_state S) ∧
    (save_state S).Nodup := by
  have hload : load_state (save_state S) = S := by
    rw [load_state, save_state]
    exact Finset.sort_toFinset _ S
  exact ⟨by rw [hload], hload, Finset.sort_sorted _ S,
    Finset.sort_nodup _ S⟩

/-! ### URL-date search lemmas -/

/-- A successful scan returns the leftmost hit in its range. -/
theorem scanFrom_some (f : Nat → Option (Nat × Nat × Nat)) :
    ∀ (n i : Nat) (v : Nat × Nat × Nat), scanFrom f n i = some v →
      ∃ j, i ≤ j ∧ j < i + n ∧ f j = some v ∧
        ∀ m, i ≤ m → m < j → f m = none := by
  intro n
  induction n with
  | zero => intro i v h; simp [scanFrom] at h
  | succ n ih =>
    intro i v h
    rw [scanFrom] at h
    cases hf : f i with
    | some w =>
      rw [hf] at h
      refine ⟨i, le_rfl, by omega, ?_, ?_⟩
      · rw [hf]
        exact h
      · intro m hm1 hm2
        omega
    | none =>
      rw [hf] at h
      obtain ⟨j, hj1, hj2, hj3, hj4⟩ := ih (i + 1) v h
      refine ⟨j, by omega, by omega, hj3, ?_⟩
      intro m hm1 hm2
      by_cases hm : m = i
      · rw [hm]; exact hf
      · exact hj4 m (by omega) hm2

/-- A failed scan found nothing anywhere in its range. -/
theorem scanFrom_none (f : Nat → Option (Nat × Nat × Nat)) :
    ∀ (n i : Nat), scanFrom f n i = none →
      ∀ j, i ≤ j → j < i + n → f j = none := by
  intro n
  induction n with
  | zero => intro i _ j _ _; omega
  | succ n ih =>
    intro i h j hj1 hj2
    rw [scanFrom] at h
    cases hf : f i with
    | some w => rw [hf] at h; cases h
    | none =>
      rw [hf] at h
      by_cases hm : j = i
      · rw [hm]; exact hf
      · exact ih (i + 1) h j (by omega) (by omega)

/-- Pattern 1 cannot match at or beyond the end of the string. -/
theorem p1At_of_le (s : List Char) (i : Nat) (h : s.length ≤ i) :
    p1At s i = none := by
  unfold p1At
  rw [List.drop_eq_nil_of_le h]

/-- Pattern 2 cannot match at or beyond the end of the string. -/
theorem p2At_of_le (s : List Char) (i : Nat) (h : s.length ≤ i) :
    p2At s i = none := by
  unfold p2At
  rw [List.drop_eq_nil_of_le h]

/-- Claim C7 (amended): `infer_date_from_url` inspects only the
LEFTMOST occurrence of each pattern (the `re.search` semantics): it
returns the leftmost `/20YY/M?M/D?D/` match when that denotes a valid
calendar date; otherwise it falls back to the leftmost
`-20YY-M?M-D?D` match (terminated by a dash, a slash, the end of the
string, or a single trailing newline) when that is valid; otherwise
it returns no instant.  In particular a valid dated segment later in
the URL is ignored when an earlier occurrence of the same pattern is
an invalid date — so the claim's promise to return the date of ANY
valid dated segment fails (see the counterexample). -/
theorem claim_C7 (url : String) :
    (∀ v, searchP1 url.data = some v →
      ∃ i, p1At url.data i = some v ∧
        ∀ j, j < i → p1At url.data j = none) ∧
    (searchP1 url.data = none → ∀ i, p1At url.data i = none) ∧
    (∀ v, searchP2 url.data = some v →
      ∃ i, p2At url.data i = some v ∧
        ∀ j, j < i → p2At url.data j = none) ∧
    (searchP2 url.data = none → ∀ i, p2At url.data i = none) ∧
    (∀ y mo d, searchP1 url.data = some (y, mo, d) →
      validDate y mo d = true →
        infer_date_from_url url = some (y, mo, d)) ∧
    ((searchP1 url.data = none ∨
        ∃ y mo d, searchP1 url.data = some (y, mo, d) ∧
          validDate y mo d = false) →
      (∀ y mo d, searchP2 url.data = some (y, mo, d) →
        validDate y mo d = true →
          infer_date_from_url url = some (y, mo, d)) ∧
      ((searchP2 url.data = none ∨
          ∃ y mo d, searchP2 url.data = some (y, mo, d) ∧
            validDate y mo d = false) →
        infer_date_from_url url = none)) := by
  refine ⟨?_, ?_, ?_, ?_, ?_, ?_⟩
  · intro v h
    obtain ⟨j, _, _, hj3, hj4⟩ := scanFrom_some _ _ _ _ h
    exact ⟨j, hj3, fun m hm => hj4 m (by omega) hm⟩
  · intro h i
    by_cases hi : i < url.data.length
    · exact scanFrom_none _ _ _ h i (by omega) (by omega)
    · exact p1At_of_le _ _ (by omega)
  · intro v h
    obtain ⟨j, _, _, hj3, hj4⟩ := scanFrom_some _ _ _ _ h
    exact ⟨j, hj3, fun m hm => hj4 m (by omega) hm⟩
  · intro h i
    by_cases hi : i < url.data.length
    · exact scanFrom_none _ _ _ h i (by omega) (by omega)
    · exact p2At_of_le _ _ (by omega)
  · intro y mo d h hv
    simp [infer_date_from_url, h, hv]
  · intro h5
    constructor
    · intro y mo d h2 hv2
      have htry : tryP2 url.data = some (y, mo, d) := by
        simp [tryP2, h2, hv2]
      rcases h5 with h | ⟨y', mo', d', h1, hv1⟩
      · simp [infer_date_from_url, h, htry]
      · simp [infer_date_from_url, h1, hv1, htry]
    · intro h6
      have htry : tryP2 url.data = none := by
        rcases h6 with h | ⟨y, mo, d, h2, hv2⟩
        · simp [tryP2, h]
        · simp [tryP2, h2, hv2]
      rcases h5 with h | ⟨y', mo', d', h1, hv1⟩
      · simp [infer_date_from_url, h, htry]
      · simp [infer_date_from_url, h1, hv1, htry]

/-- Counterexample to claim C7 as stated: the URL
`a/2023/13/05/b/2022/01/02/c` contains the valid dated segment
`/2022/01/02/`, yet the inference returns no instant, because the
leftmost pattern-1 match `/2023/13/05/` is an invalid date and the
code then abandons pattern 1 entirely. -/
theorem claim_C7_counterexample :
    p1At "a/2023/13/05/b/2022/01/02/c".data 14 = some (2022, 1, 2) ∧
    validDate 2022 1 2 = true ∧
    infer_date_from_url "a/2023/13/05/b/2022/01/02/c" = none :=
  ⟨by decide, by decide, by decide⟩

/-- Witness for claim C7 (amended) at a URL whose leftmost pattern-1
match is a valid date. -/
theorem claim_C7_witness :
    (searchP1 "https://x.ph/2024/05/06/story".data = some (2024, 5, 6) ∧
      validDate 2024 5 6 = true) ∧
    infer_date_from_url "https://x.ph/2024/05/06/story" =
      some (2024, 5, 6) :=
  ⟨⟨by decide, by decide⟩,
   (claim_C7 "https://x.ph/2024/05/06/story").2.2.2.2.1 2024 5 6
     (by decide) (by decide)⟩
